import Mathlib

/-!
# Verification of the `ExpenseManager` ledger (spliter.py)

A shallow embedding of the `ExpenseManager` class of `spliter/spliter.py`
(the file `splitter/spliter.py` holds an identical copy of the class).

Python `dict`s preserve insertion order, so both `balances`
(`defaultdict(float)`) and `transactions` (`defaultdict(lambda:
defaultdict(float))`) are embedded as association lists in insertion
order.  A `defaultdict(float)` read of a missing key yields `0.0`;
`d[k] += v` therefore stores `(old value, defaulting to 0) + v`, and
updating an existing key keeps its position while a new key is appended.
Python floats are modelled as exact rationals `ℚ`.
`add_expense` divides by `len(participants)` before touching any state,
so an empty participant list raises `ZeroDivisionError` with the state
untouched; the embedding returns `Option`, with `none` for that error.
-/

abbrev Person := String

/-- `d[k]` on a Python dict with default `v₀` for a missing key
(the read side of `defaultdict` access). -/
def dgetD {κ α : Type} [DecidableEq κ] : List (κ × α) → κ → α → α
  | [], _, v₀ => v₀
  | (k', v) :: d, k, v₀ => if k = k' then v else dgetD d k v₀

/-- `d[k] = v` on a Python dict: overwrite in place if the key is
present (keeping its position), else append the new key. -/
def dset {κ α : Type} [DecidableEq κ] : List (κ × α) → κ → α → List (κ × α)
  | [], k, v => [(k, v)]
  | (k', v') :: d, k, v => if k = k' then (k, v) :: d else (k', v') :: dset d k v

/-- `d[k] += x` on a `defaultdict(float)`: read with default `0`, add, store. -/
def badd (d : List (Person × ℚ)) (k : Person) (x : ℚ) : List (Person × ℚ) :=
  dset d k (dgetD d k 0 + x)

/-- `t[p][q] += x` on a `defaultdict(lambda: defaultdict(float))`:
the outer access materialises an empty inner dict for a missing key,
then the inner dict gets `[q] += x`. -/
def tadd (t : List (Person × List (Person × ℚ))) (p q : Person) (x : ℚ) :
    List (Person × List (Person × ℚ)) :=
  dset t p (badd (dgetD t p []) q x)

/-- Lookup `t[r][s]` with the nested-`defaultdict` default `0`. -/
def tdget (t : List (Person × List (Person × ℚ))) (r s : Person) : ℚ :=
  dgetD (dgetD t r []) s 0

/-- The state of `ExpenseManager`: `self.balances` and `self.transactions`. -/
structure ExpenseManager where
  balances : List (Person × ℚ)
  transactions : List (Person × List (Person × ℚ))
deriving DecidableEq

/-- `ExpenseManager.__init__`: both dicts start empty. -/
def ExpenseManager.empty : ExpenseManager := ⟨[], []⟩

/-- The body of the `for person in participants:` loop of `add_expense`:
a non-payer participant is debited the split, the payer is debited the
split again, and the pairwise transaction is recorded (the source's
`if item:` conditional has identical branches, reproduced as such). -/
def expenseStep (payer : Person) (split_amount : ℚ) (item : Option String)
    (acc : ExpenseManager) (person : Person) : ExpenseManager :=
  if person ≠ payer then
    let b := badd (badd acc.balances person (-split_amount)) payer (-split_amount)
    if item.isSome then
      { balances := b, transactions := tadd acc.transactions person payer split_amount }
    else
      { balances := b, transactions := tadd acc.transactions person payer split_amount }
  else acc

/-- `ExpenseManager.add_expense(payer, amount, participants, item=None)`.
The division by `len(participants)` comes first in the source, so an
empty list raises `ZeroDivisionError` before any state is touched:
embedded as `none`, with the caller's state unchanged. -/
def add_expense (m : ExpenseManager) (payer : Person) (amount : ℚ)
    (participants : List Person) (item : Option String) : Option ExpenseManager :=
  if participants.length = 0 then
    none
  else
    let split_amount := amount / (participants.length : ℚ)
    let m₁ : ExpenseManager := { m with balances := badd m.balances payer amount }
    some (participants.foldl (expenseStep payer split_amount item) m₁)

/-- `ExpenseManager.get_balances`: `dict(self.balances)` as a value. -/
def get_balances (m : ExpenseManager) : List (Person × ℚ) := m.balances

/-- `ExpenseManager.get_transactions`: `dict(self.transactions)` as a value
(see `RefManager` below for the reference-level shallow-copy behaviour). -/
def get_transactions (m : ExpenseManager) : List (Person × List (Person × ℚ)) :=
  m.transactions

/-- The aggregation loop of `display_transactions`: starting from an empty
`total_debts`, each recorded transaction `transactions[person][payer] = amount`
contributes `total_debts[person][payer] += amount` and
`total_debts[payer][person] -= amount`. -/
def total_debts (m : ExpenseManager) : List (Person × List (Person × ℚ)) :=
  m.transactions.foldl
    (fun td pd =>
      pd.2.foldl (fun td qa => tadd (tadd td pd.1 qa.1 qa.2) qa.1 pd.1 (-qa.2)) td)
    []

/-- The "Detailed Transactions" pass of `display_transactions`: every entry
of `total_debts` with a strictly positive amount yields the line
`"{person} owes {payer} {amount:.2f} INR."`, kept as the triple
(debtor, creditor, amount) in iteration order. -/
def detailedReport (m : ExpenseManager) : List (Person × Person × ℚ) :=
  (total_debts m).foldl
    (fun out pd =>
      pd.2.foldl (fun out qa => if 0 < qa.2 then out ++ [(pd.1, qa.1, qa.2)] else out) out)
    []

/-- The "Summary of Total Amounts Owed" pass of `display_transactions`:
the source runs a second loop over the same `total_debts`, printing
`"{person} owes {payer} a total of {total_amount:.2f} INR."`; the triples
it reports, in iteration order. -/
def summaryReport (m : ExpenseManager) : List (Person × Person × ℚ) :=
  (total_debts m).foldl
    (fun out pd =>
      pd.2.foldl (fun out qa => if 0 < qa.2 then out ++ [(pd.1, qa.1, qa.2)] else out) out)
    []

/-- The net pairwise debt of the spec's words: `net[A][B] =
PairwiseLedger[A][B] - PairwiseLedger[B][A]` (missing entries read as 0). -/
def netValue (m : ExpenseManager) (a b : Person) : ℚ :=
  tdget m.transactions a b - tdget m.transactions b a

/-- The sum of all `NetBalance` values of a state. -/
def sumBalances (m : ExpenseManager) : ℚ := (m.balances.map Prod.snd).sum

/-- One `add_expense` call: payer, amount, participants, item. -/
abbrev Call := Person × ℚ × List Person × Option String

/-- Run a sequence of `add_expense` calls, stopping at the first error. -/
def runCalls (m : ExpenseManager) : List Call → Option ExpenseManager
  | [] => some m
  | c :: cs =>
    match add_expense m c.1 c.2.1 c.2.2.1 c.2.2.2 with
    | some m' => runCalls m' cs
    | none => none

/-- A call the spec calls valid: positive amount, non-empty participants. -/
def ValidCall (c : Call) : Prop := 0 < c.2.1 ∧ c.2.2.1 ≠ []

instance : DecidablePred ValidCall := fun c => by
  unfold ValidCall; infer_instance

/-! ## Dictionary lemmas -/

/-- The keys of an association list, in order. -/
def keys {κ α : Type} (d : List (κ × α)) : List κ := d.map Prod.fst

theorem dgetD_dset {κ α : Type} [DecidableEq κ] (d : List (κ × α)) (k a : κ) (v v₀ : α) :
    dgetD (dset d k v) a v₀ = if a = k then v else dgetD d a v₀ := by
  induction d with
  | nil => simp [dset, dgetD]
  | cons hd tl ih =>
    obtain ⟨k', v'⟩ := hd
    by_cases hk : k = k'
    · subst hk
      by_cases ha : a = k <;> simp [dset, dgetD, ha]
    · by_cases ha : a = k'
      · subst ha
        simp [dset, dgetD, hk, Ne.symm hk]
      · simp [dset, dgetD, hk, ha, ih]

theorem dgetD_badd (d : List (Person × ℚ)) (k a : Person) (x : ℚ) :
    dgetD (badd d k x) a 0 = dgetD d a 0 + if a = k then x else 0 := by
  unfold badd
  rw [dgetD_dset]
  by_cases ha : a = k
  · subst ha; simp
  · simp [ha]

theorem tdget_tadd (t : List (Person × List (Person × ℚ))) (p q a b : Person) (x : ℚ) :
    tdget (tadd t p q x) a b = tdget t a b + if a = p ∧ b = q then x else 0 := by
  unfold tadd tdget
  rw [dgetD_dset]
  by_cases ha : a = p
  · subst ha
    rw [if_pos rfl, dgetD_badd]
    by_cases hb : b = q <;> simp [hb]
  · simp [ha]

theorem keys_dset {κ α : Type} [DecidableEq κ] (d : List (κ × α)) (k : κ) (v : α) :
    keys (dset d k v) = if k ∈ keys d then keys d else keys d ++ [k] := by
  induction d with
  | nil => simp [dset, keys]
  | cons hd tl ih =>
    obtain ⟨k', v'⟩ := hd
    by_cases hk : k = k'
    · subst hk; simp [dset, keys]
    · simp only [keys, List.map_cons] at ih ⊢
      simp only [dset, if_neg hk, List.map_cons, List.mem_cons, ih]
      by_cases hmem : k ∈ List.map Prod.fst tl
      · simp [hmem]
      · simp [hmem, hk]

theorem keys_dset_nodup {κ α : Type} [DecidableEq κ] (d : List (κ × α)) (k : κ) (v : α)
    (h : (keys d).Nodup) : (keys (dset d k v)).Nodup := by
  rw [keys_dset]
  by_cases hmem : k ∈ keys d
  · simpa [hmem]
  · simp only [hmem, if_false]
    refine List.Nodup.append h (List.nodup_singleton k) ?_
    intro a ha hb
    simp only [List.mem_singleton] at hb
    exact hmem (hb ▸ ha)

theorem mem_dset {κ α : Type} [DecidableEq κ] (d : List (κ × α)) (k : κ) (v : α)
    (x : κ × α) (hx : x ∈ dset d k v) : x ∈ d ∨ x = (k, v) := by
  induction d with
  | nil =>
    simp only [dset, List.mem_singleton] at hx
    exact Or.inr hx
  | cons hd tl ih =>
    obtain ⟨k', v'⟩ := hd
    by_cases hk : k = k'
    · subst hk
      simp only [dset, eq_self_iff_true, if_true, List.mem_cons] at hx
      rcases hx with h1 | h1
      · exact Or.inr h1
      · exact Or.inl (List.mem_cons_of_mem _ h1)
    · simp only [dset, if_neg hk, List.mem_cons] at hx
      rcases hx with h1 | h1
      · exact Or.inl (h1 ▸ List.mem_cons_self _ _)
      · rcases ih h1 with h2 | h2
        · exact Or.inl (List.mem_cons_of_mem _ h2)
        · exact Or.inr h2

theorem dgetD_eq_of_mem {κ α : Type} [DecidableEq κ] (d : List (κ × α)) (k : κ) (v v₀ : α)
    (hnd : (keys d).Nodup) (hmem : (k, v) ∈ d) : dgetD d k v₀ = v := by
  induction d with
  | nil => simp at hmem
  | cons hd tl ih =>
    obtain ⟨k', v'⟩ := hd
    simp only [keys, List.map_cons, List.nodup_cons] at hnd
    rcases List.mem_cons.mp hmem with h1 | h1
    · have hk : k = k' := (Prod.ext_iff.mp h1).1
      have hv : v = v' := (Prod.ext_iff.mp h1).2
      subst hk; subst hv
      simp [dgetD]
    · have hk : k ≠ k' := by
        rintro rfl
        exact hnd.1 (List.mem_map_of_mem Prod.fst h1)
      simp only [dgetD, if_neg hk]
      exact ih (by simpa [keys] using hnd.2) h1

theorem mem_of_dgetD_ne {κ α : Type} [DecidableEq κ] (d : List (κ × α)) (k : κ) (v₀ : α)
    (h : dgetD d k v₀ ≠ v₀) : (k, dgetD d k v₀) ∈ d := by
  induction d with
  | nil => simp [dgetD] at h
  | cons hd tl ih =>
    obtain ⟨k', v'⟩ := hd
    by_cases hk : k = k'
    · subst hk; simp [dgetD]
    · simp only [dgetD, if_neg hk] at h ⊢
      exact List.mem_cons_of_mem _ (ih h)

/-! ## Effect of one `add_expense` call -/

/-- The participant-list entries that are not the payer (the entries for
which the loop body of `add_expense` does anything). -/
def nonPayers (payer : Person) (parts : List Person) : List Person :=
  parts.filter (fun p => p ≠ payer)

theorem nonPayers_cons (payer p : Person) (ps : List Person) :
    nonPayers payer (p :: ps) =
      if p = payer then nonPayers payer ps else p :: nonPayers payer ps := by
  by_cases hp : p = payer <;> simp [nonPayers, List.filter_cons, hp]

theorem count_cons_person (a b : Person) (l : List Person) :
    (b :: l).count a = l.count a + if a = b then 1 else 0 := by
  rw [List.count_cons]
  by_cases h : a = b
  · simp [h]
  · have h2 : ¬b = a := fun hh => h hh.symm
    simp [h, h2, beq_iff_eq]

theorem expenseStep_balances (payer : Person) (split : ℚ) (item : Option String)
    (acc : ExpenseManager) (person q : Person) :
    dgetD (expenseStep payer split item acc person).balances q 0 =
      dgetD acc.balances q 0 +
        (if person ≠ payer then
          (if q = person then -split else 0) + (if q = payer then -split else 0)
        else 0) := by
  unfold expenseStep
  by_cases hp : person = payer
  · simp [hp]
  · simp only [ne_eq, hp, not_false_iff, if_true]
    cases item <;> simp [dgetD_badd] <;> ring

theorem expenseStep_transactions (payer : Person) (split : ℚ) (item : Option String)
    (acc : ExpenseManager) (person r s : Person) :
    tdget (expenseStep payer split item acc person).transactions r s =
      tdget acc.transactions r s +
        (if ¬person = payer ∧ r = person ∧ s = payer then split else 0) := by
  unfold expenseStep
  by_cases hp : person = payer
  · simp [hp]
  · simp only [ne_eq, hp, not_false_iff, if_true]
    cases item <;> simp [tdget_tadd, hp]

theorem foldl_expenseStep_balances (payer : Person) (split : ℚ) (item : Option String)
    (parts : List Person) (acc : ExpenseManager) (q : Person) :
    dgetD ((parts.foldl (expenseStep payer split item) acc).balances) q 0 =
      dgetD acc.balances q 0
        - split * ((nonPayers payer parts).count q : ℚ)
        - split * (if q = payer then ((nonPayers payer parts).length : ℚ) else 0) := by
  induction parts generalizing acc with
  | nil => simp [nonPayers]
  | cons p ps ih =>
    rw [List.foldl_cons, ih, expenseStep_balances, nonPayers_cons]
    by_cases hp : p = payer
    · rw [if_pos hp, if_neg (not_not_intro hp)]
      ring
    · rw [if_neg hp, if_pos hp, count_cons_person, List.length_cons]
      push_cast
      by_cases hq : q = p <;> by_cases hqp : q = payer <;>
        simp [hq, hqp, hp, Ne.symm hp] <;> ring

theorem foldl_expenseStep_transactions (payer : Person) (split : ℚ)
    (item : Option String) (parts : List Person) (acc : ExpenseManager) (r s : Person) :
    tdget ((parts.foldl (expenseStep payer split item) acc).transactions) r s =
      tdget acc.transactions r s +
        split * (if s = payer then ((nonPayers payer parts).count r : ℚ) else 0) := by
  induction parts generalizing acc with
  | nil => simp [nonPayers]
  | cons p ps ih =>
    rw [List.foldl_cons, ih, expenseStep_transactions, nonPayers_cons]
    by_cases hp : p = payer
    · rw [if_pos hp]
      simp [hp]
    · rw [if_neg hp, count_cons_person]
      push_cast
      by_cases hr : r = p <;> by_cases hs : s = payer <;>
        simp [hr, hs, hp] <;> ring

theorem add_expense_eq_some (m : ExpenseManager) (payer : Person) (amount : ℚ)
    (parts : List Person) (item : Option String) (h : parts ≠ []) :
    add_expense m payer amount parts item =
      some (parts.foldl (expenseStep payer (amount / (parts.length : ℚ)) item)
        { m with balances := badd m.balances payer amount }) := by
  unfold add_expense
  rw [if_neg (by simpa using h)]

theorem add_expense_balances (m : ExpenseManager) (payer : Person) (amount : ℚ)
    (parts : List Person) (item : Option String) (m' : ExpenseManager) (q : Person)
    (h : add_expense m payer amount parts item = some m') :
    dgetD m'.balances q 0 =
      dgetD m.balances q 0 + (if q = payer then amount else 0)
        - (amount / (parts.length : ℚ)) * ((nonPayers payer parts).count q : ℚ)
        - (amount / (parts.length : ℚ)) *
            (if q = payer then ((nonPayers payer parts).length : ℚ) else 0) := by
  have hne : parts ≠ [] := by
    intro hnil
    subst hnil
    simp [add_expense] at h
  rw [add_expense_eq_some m payer amount parts item hne] at h
  have hm : m' = parts.foldl (expenseStep payer (amount / (parts.length : ℚ)) item)
      { m with balances := badd m.balances payer amount } := (Option.some.inj h).symm
  subst hm
  rw [foldl_expenseStep_balances]
  show _ - _ - _ = _
  rw [show ({ m with balances := badd m.balances payer amount } :
      ExpenseManager).balances = badd m.balances payer amount from rfl]
  rw [dgetD_badd]

theorem add_expense_transactions (m : ExpenseManager) (payer : Person) (amount : ℚ)
    (parts : List Person) (item : Option String) (m' : ExpenseManager) (r s : Person)
    (h : add_expense m payer amount parts item = some m') :
    tdget m'.transactions r s =
      tdget m.transactions r s +
        (amount / (parts.length : ℚ)) *
          (if s = payer then ((nonPayers payer parts).count r : ℚ) else 0) := by
  have hne : parts ≠ [] := by
    intro hnil
    subst hnil
    simp [add_expense] at h
  rw [add_expense_eq_some m payer amount parts item hne] at h
  have hm : m' = parts.foldl (expenseStep payer (amount / (parts.length : ℚ)) item)
      { m with balances := badd m.balances payer amount } := (Option.some.inj h).symm
  subst hm
  rw [foldl_expenseStep_transactions]

/-! ## The net-debt aggregation of `display_transactions` -/

/-- Well-formedness every Python dict state has: no duplicate keys in the
outer map and in any inner map. -/
def TransWF (ts : List (Person × List (Person × ℚ))) : Prop :=
  (keys ts).Nodup ∧ ∀ pd ∈ ts, (keys pd.2).Nodup

instance (ts : List (Person × List (Person × ℚ))) : Decidable (TransWF ts) := by
  unfold TransWF
  infer_instance

theorem sum_map_add_q {β : Type} (l : List β) (f g : β → ℚ) :
    (l.map fun x => f x + g x).sum = (l.map f).sum + (l.map g).sum := by
  induction l with
  | nil => simp
  | cons x xs ih =>
    simp only [List.map_cons, List.sum_cons, ih]
    ring

theorem sum_map_zero_q {β : Type} (l : List β) :
    (l.map fun _ => (0 : ℚ)).sum = 0 := by
  induction l with
  | nil => simp
  | cons x xs ih => simp [ih]

theorem sum_ite_keyed_zero {α : Type} (g : α → ℚ) (d : List (Person × α)) (a : Person)
    (ha : a ∉ keys d) :
    (d.map fun pv => if a = pv.1 then g pv.2 else 0).sum = 0 := by
  induction d with
  | nil => simp
  | cons hd tl ih =>
    simp only [keys, List.map_cons, List.mem_cons] at ha
    push_neg at ha
    simp [ha.1, ih (by simpa [keys] using ha.2)]

theorem sum_ite_keyed {α : Type} (v₀ : α) (g : α → ℚ) (hg : g v₀ = 0)
    (d : List (Person × α)) (hnd : (keys d).Nodup) (a : Person) :
    (d.map fun pv => if a = pv.1 then g pv.2 else 0).sum = g (dgetD d a v₀) := by
  induction d with
  | nil => simp [dgetD, hg]
  | cons hd tl ih =>
    obtain ⟨k, v⟩ := hd
    simp only [keys, List.map_cons, List.nodup_cons] at hnd
    by_cases ha : a = k
    · subst ha
      simp only [List.map_cons, List.sum_cons, dgetD, eq_self_iff_true, if_true]
      rw [sum_ite_keyed_zero g tl a (by simpa [keys] using hnd.1)]
      ring
    · simp only [List.map_cons, List.sum_cons, if_neg ha, dgetD, if_neg ha]
      rw [ih (by simpa [keys] using hnd.2)]
      ring

theorem tdget_inner_fold (person : Person) (debts : List (Person × ℚ))
    (td : List (Person × List (Person × ℚ))) (a b : Person) :
    tdget (debts.foldl
        (fun td qa => tadd (tadd td person qa.1 qa.2) qa.1 person (-qa.2)) td) a b =
      tdget td a b +
        (debts.map fun qa =>
          (if a = person ∧ b = qa.1 then qa.2 else 0) +
          (if a = qa.1 ∧ b = person then -qa.2 else 0)).sum := by
  induction debts generalizing td with
  | nil => simp
  | cons qa rest ih =>
    rw [List.foldl_cons, ih, tdget_tadd, tdget_tadd]
    simp only [List.map_cons, List.sum_cons]
    ring

theorem tdget_outer_fold (ts : List (Person × List (Person × ℚ)))
    (td : List (Person × List (Person × ℚ))) (a b : Person) :
    tdget (ts.foldl
        (fun td pd =>
          pd.2.foldl (fun td qa => tadd (tadd td pd.1 qa.1 qa.2) qa.1 pd.1 (-qa.2)) td)
        td) a b =
      tdget td a b +
        (ts.map fun pd =>
          (pd.2.map fun qa =>
            (if a = pd.1 ∧ b = qa.1 then qa.2 else 0) +
            (if a = qa.1 ∧ b = pd.1 then -qa.2 else 0)).sum).sum := by
  induction ts generalizing td with
  | nil => simp
  | cons pd rest ih =>
    rw [List.foldl_cons, ih]
    simp only [List.map_cons, List.sum_cons]
    rw [tdget_inner_fold]
    ring

theorem inner_nodup_of_TransWF (t : List (Person × List (Person × ℚ)))
    (h : TransWF t) (p : Person) : (keys (dgetD t p [])).Nodup := by
  by_cases hne : dgetD t p [] = []
  · simp [hne, keys]
  · exact h.2 (p, dgetD t p []) (mem_of_dgetD_ne t p [] hne)

theorem tadd_TransWF (t : List (Person × List (Person × ℚ))) (p q : Person) (x : ℚ)
    (h : TransWF t) : TransWF (tadd t p q x) := by
  refine ⟨keys_dset_nodup _ _ _ h.1, ?_⟩
  intro pd hpd
  rcases mem_dset _ _ _ _ hpd with h1 | h1
  · exact h.2 pd h1
  · subst h1
    exact keys_dset_nodup _ _ _ (inner_nodup_of_TransWF t h p)

theorem inner_fold_TransWF (person : Person) (debts : List (Person × ℚ))
    (td : List (Person × List (Person × ℚ))) (h : TransWF td) :
    TransWF (debts.foldl
      (fun td qa => tadd (tadd td person qa.1 qa.2) qa.1 person (-qa.2)) td) := by
  induction debts generalizing td with
  | nil => exact h
  | cons qa rest ih =>
    exact ih _ (tadd_TransWF _ _ _ _ (tadd_TransWF _ _ _ _ h))

theorem outer_fold_TransWF (ts : List (Person × List (Person × ℚ)))
    (td : List (Person × List (Person × ℚ))) (h : TransWF td) :
    TransWF (ts.foldl
      (fun td pd =>
        pd.2.foldl (fun td qa => tadd (tadd td pd.1 qa.1 qa.2) qa.1 pd.1 (-qa.2)) td)
      td) := by
  induction ts generalizing td with
  | nil => exact h
  | cons pd rest ih =>
    exact ih _ (inner_fold_TransWF pd.1 pd.2 td h)

theorem total_debts_TransWF (m : ExpenseManager) : TransWF (total_debts m) := by
  unfold total_debts
  refine outer_fold_TransWF _ _ ⟨by simp [keys], ?_⟩
  intro pd hpd
  simp at hpd

theorem tdget_total_debts (m : ExpenseManager) (h : TransWF m.transactions)
    (a b : Person) : tdget (total_debts m) a b = netValue m a b := by
  unfold total_debts
  rw [tdget_outer_fold]
  have key : ∀ pd ∈ m.transactions,
      (pd.2.map fun qa =>
        (if a = pd.1 ∧ b = qa.1 then qa.2 else 0) +
        (if a = qa.1 ∧ b = pd.1 then -qa.2 else 0)).sum =
      (if a = pd.1 then dgetD pd.2 b 0 else 0) +
      (if b = pd.1 then -(dgetD pd.2 a 0) else 0) := by
    intro pd hpd
    rw [show (fun qa : Person × ℚ =>
        (if a = pd.1 ∧ b = qa.1 then qa.2 else 0) +
        (if a = qa.1 ∧ b = pd.1 then -qa.2 else 0)) =
      (fun qa : Person × ℚ =>
        (if a = pd.1 then (if b = qa.1 then qa.2 else 0) else 0) +
        (if b = pd.1 then (if a = qa.1 then -qa.2 else 0) else 0)) by
        funext qa
        by_cases h1 : a = pd.1 <;> by_cases h4 : b = pd.1 <;>
          simp [h1, h4]]
    rw [sum_map_add_q]
    congr 1
    · by_cases h1 : a = pd.1
      · simp only [h1, if_true, eq_self_iff_true]
        exact sum_ite_keyed 0 (fun x => x) rfl pd.2 (h.2 pd hpd) b
      · simp only [h1, if_false]
        exact sum_map_zero_q pd.2
    · by_cases h4 : b = pd.1
      · simp only [h4, if_true, eq_self_iff_true]
        exact sum_ite_keyed 0 (fun x => -x) neg_zero pd.2 (h.2 pd hpd) a
      · simp only [h4, if_false]
        exact sum_map_zero_q pd.2
  rw [List.map_congr_left key, sum_map_add_q]
  rw [sum_ite_keyed ([] : List (Person × ℚ)) (fun d => dgetD d b 0) rfl
    m.transactions h.1 a]
  rw [sum_ite_keyed ([] : List (Person × ℚ)) (fun d => -(dgetD d a 0))
    (by simp [dgetD]) m.transactions h.1 b]
  unfold netValue tdget
  simp only [dgetD]
  ring

theorem mem_inner_report (person : Person) (debts : List (Person × ℚ))
    (out : List (Person × Person × ℚ)) (x : Person × Person × ℚ) :
    (x ∈ debts.foldl
        (fun out qa => if 0 < qa.2 then out ++ [(person, qa.1, qa.2)] else out) out) ↔
      x ∈ out ∨ ∃ qa ∈ debts, 0 < qa.2 ∧ x = (person, qa.1, qa.2) := by
  induction debts generalizing out with
  | nil => simp
  | cons qa rest ih =>
    rw [List.foldl_cons, ih]
    by_cases hq : 0 < qa.2
    · simp only [if_pos hq, List.mem_append, List.mem_singleton,
        List.exists_mem_cons_iff]
      tauto
    · simp only [if_neg hq, List.exists_mem_cons_iff]
      tauto

theorem mem_outer_report (ts : List (Person × List (Person × ℚ)))
    (out : List (Person × Person × ℚ)) (x : Person × Person × ℚ) :
    (x ∈ ts.foldl
        (fun out pd =>
          pd.2.foldl (fun out qa => if 0 < qa.2 then out ++ [(pd.1, qa.1, qa.2)] else out)
            out) out) ↔
      x ∈ out ∨ ∃ pd ∈ ts, ∃ qa ∈ pd.2, 0 < qa.2 ∧ x = (pd.1, qa.1, qa.2) := by
  induction ts generalizing out with
  | nil => simp
  | cons pd rest ih =>
    rw [List.foldl_cons, ih, mem_inner_report]
    constructor
    · rintro ((hx | ⟨qa, hqa, hpos, heq⟩) | ⟨pd2, hpd2, qa, hqa, hpos, heq⟩)
      · exact Or.inl hx
      · exact Or.inr ⟨pd, List.mem_cons_self _ _, qa, hqa, hpos, heq⟩
      · exact Or.inr ⟨pd2, List.mem_cons_of_mem _ hpd2, qa, hqa, hpos, heq⟩
    · rintro (hx | ⟨pd2, hpd2, qa, hqa, hpos, heq⟩)
      · exact Or.inl (Or.inl hx)
      · rcases List.mem_cons.mp hpd2 with h1 | h1
        · subst h1
          exact Or.inl (Or.inr ⟨qa, hqa, hpos, heq⟩)
        · exact Or.inr ⟨pd2, h1, qa, hqa, hpos, heq⟩

theorem mem_detailedReport (m : ExpenseManager) (a b : Person) (v : ℚ) :
    ((a, b, v) ∈ detailedReport m) ↔
      tdget (total_debts m) a b = v ∧ 0 < v := by
  have hwf := total_debts_TransWF m
  unfold detailedReport
  rw [mem_outer_report]
  simp only [List.not_mem_nil, false_or]
  constructor
  · rintro ⟨pd, hpd, qa, hqa, hpos, heq⟩
    obtain ⟨ha, hb, hv⟩ : a = pd.1 ∧ b = qa.1 ∧ v = qa.2 := by
      have h1 := congrArg Prod.fst heq
      have h2 := congrArg (fun y => y.2.1) heq
      have h3 := congrArg (fun y => y.2.2) heq
      exact ⟨h1, h2, h3⟩
    subst ha; subst hb; subst hv
    refine ⟨?_, hpos⟩
    unfold tdget
    rw [dgetD_eq_of_mem (total_debts m) pd.1 pd.2 [] hwf.1
      (by simpa using hpd)]
    exact dgetD_eq_of_mem pd.2 qa.1 qa.2 0 (hwf.2 pd hpd) (by simpa using hqa)
  · rintro ⟨hval, hpos⟩
    have hvne : v ≠ 0 := ne_of_gt hpos
    have hinner : dgetD (dgetD (total_debts m) a []) b 0 ≠ 0 := by
      unfold tdget at hval
      rw [hval]
      exact hvne
    have houter : dgetD (total_debts m) a [] ≠ [] := by
      intro hempty
      rw [hempty] at hinner
      simp [dgetD] at hinner
    have hmem_outer : (a, dgetD (total_debts m) a []) ∈ total_debts m :=
      mem_of_dgetD_ne _ _ _ houter
    have hmem_inner : (b, dgetD (dgetD (total_debts m) a []) b 0) ∈
        dgetD (total_debts m) a [] := mem_of_dgetD_ne _ _ _ hinner
    refine ⟨(a, dgetD (total_debts m) a []), hmem_outer,
      (b, dgetD (dgetD (total_debts m) a []) b 0), hmem_inner, ?_, ?_⟩
    · show 0 < dgetD (dgetD (total_debts m) a []) b 0
      unfold tdget at hval
      rw [hval]
      exact hpos
    · unfold tdget at hval
      rw [hval]

/-! ## Counting helpers and the sign of ledger entries -/

theorem nonPayers_count_eq (payer p : Person) (parts : List Person) (hp : ¬p = payer) :
    (nonPayers payer parts).count p = parts.count p := by
  unfold nonPayers
  exact List.count_filter (by simpa using hp)

theorem nonPayers_count_payer (payer : Person) (parts : List Person) :
    (nonPayers payer parts).count payer = 0 := by
  rw [List.count_eq_zero]
  intro hmem
  rw [nonPayers, List.mem_filter] at hmem
  simp at hmem

theorem nonPayers_of_not_mem (payer : Person) (parts : List Person)
    (h : payer ∉ parts) : nonPayers payer parts = parts := by
  unfold nonPayers
  rw [List.filter_eq_self]
  intro a ha
  simp only [ne_eq, decide_not, Bool.not_eq_true', decide_eq_false_iff_not]
  rintro rfl
  exact h ha

theorem add_expense_trans_nonneg (m : ExpenseManager) (payer : Person) (amount : ℚ)
    (parts : List Person) (item : Option String) (m' : ExpenseManager)
    (hpos : 0 < amount) (h : add_expense m payer amount parts item = some m')
    (hm : ∀ r s, 0 ≤ tdget m.transactions r s) :
    ∀ r s, 0 ≤ tdget m'.transactions r s := by
  intro r s
  rw [add_expense_transactions m payer amount parts item m' r s h]
  have hsplit : 0 ≤ amount / (parts.length : ℚ) :=
    div_nonneg hpos.le (Nat.cast_nonneg _)
  have hterm : 0 ≤ (amount / (parts.length : ℚ)) *
      (if s = payer then ((nonPayers payer parts).count r : ℚ) else 0) := by
    by_cases hs : s = payer
    · rw [if_pos hs]
      exact mul_nonneg hsplit (Nat.cast_nonneg _)
    · simp [hs]
  linarith [hm r s]

theorem runCalls_trans_nonneg (calls : List Call) (m m' : ExpenseManager)
    (hv : ∀ c ∈ calls, ValidCall c) (hm : ∀ r s, 0 ≤ tdget m.transactions r s)
    (hrun : runCalls m calls = some m') : ∀ r s, 0 ≤ tdget m'.transactions r s := by
  induction calls generalizing m with
  | nil =>
    have : m = m' := Option.some.inj hrun
    exact this ▸ hm
  | cons c cs ih =>
    simp only [runCalls] at hrun
    cases hadd : add_expense m c.1 c.2.1 c.2.2.1 c.2.2.2 with
    | none =>
      rw [hadd] at hrun
      simp at hrun
    | some m₁ =>
      rw [hadd] at hrun
      exact ih m₁ (fun c2 hc2 => hv c2 (List.mem_cons_of_mem _ hc2))
        (add_expense_trans_nonneg m c.1 c.2.1 c.2.2.1 c.2.2.2 m₁
          (hv c (List.mem_cons_self _ _)).1 hadd hm) hrun

/-! ## Reference-semantics model of the snapshot operations

`get_balances` returns `dict(self.balances)`: a fresh dict whose values
are Python floats, which are immutable, so that snapshot is fully
independent of the manager.  `get_transactions` returns
`dict(self.transactions)`: a fresh outer dict whose values are the very
same inner dict objects as `self.transactions` (a shallow copy).  To
state what sharing means, inner dicts live on an explicit heap of
numbered addresses; the manager's outer map and any snapshot of it hold
addresses into that heap. -/

/-- Association-list lookup, `none` for a missing key. -/
def alookup {κ α : Type} [DecidableEq κ] : List (κ × α) → κ → Option α
  | [], _ => none
  | (k', v) :: d, k => if k = k' then some v else alookup d k

/-- `ExpenseManager` at the reference level: `touter` maps each person to
the heap address of their inner transactions dict. -/
structure RefManager where
  balances : List (Person × ℚ)
  touter : List (Person × Nat)
  heap : List (Nat × List (Person × ℚ))
  next : Nat
deriving DecidableEq

def RefManager.empty : RefManager := ⟨[], [], [], 0⟩

/-- The loop body of `add_expense` at the reference level:
`self.transactions[person]` either finds the existing inner dict address
or allocates a fresh empty inner dict; then `[payer] += split` updates
that inner dict on the heap. -/
def expenseStepRef (payer : Person) (split_amount : ℚ) (item : Option String)
    (acc : RefManager) (person : Person) : RefManager :=
  if person ≠ payer then
    let b := badd (badd acc.balances person (-split_amount)) payer (-split_amount)
    match alookup acc.touter person with
    | some addr =>
      { acc with
        balances := b,
        heap := dset acc.heap addr (badd (dgetD acc.heap addr []) payer split_amount) }
    | none =>
      { acc with
        balances := b,
        touter := acc.touter ++ [(person, acc.next)],
        heap := dset acc.heap acc.next
          (badd ([] : List (Person × ℚ)) payer split_amount),
        next := acc.next + 1 }
  else acc

/-- `add_expense` at the reference level (the `item` parameter is carried
but, as in the source, has no effect). -/
def add_expense_ref (m : RefManager) (payer : Person) (amount : ℚ)
    (participants : List Person) (item : Option String) : Option RefManager :=
  if participants.length = 0 then
    none
  else
    let split_amount := amount / (participants.length : ℚ)
    let m₁ : RefManager := { m with balances := badd m.balances payer amount }
    some (participants.foldl (expenseStepRef payer split_amount item) m₁)

/-- `get_balances` at the reference level: `dict(self.balances)`, a fresh
value holding immutable numbers. -/
def get_balances_ref (m : RefManager) : List (Person × ℚ) := m.balances

/-- `get_transactions` at the reference level: `dict(self.transactions)`
copies the outer mapping only; its values are the inner dict ADDRESSES,
shared with the manager. -/
def get_transactions_ref (m : RefManager) : List (Person × Nat) := m.touter

/-- Mutating a returned transactions snapshot at an inner entry:
`snapshot[p][q] = v` writes through the shared heap address. -/
def writeSnapshotInner (m : RefManager) (snapshot : List (Person × Nat))
    (p q : Person) (v : ℚ) : RefManager :=
  match alookup snapshot p with
  | some addr => { m with heap := dset m.heap addr (dset (dgetD m.heap addr []) q v) }
  | none => m

/-- The manager's transactions as its own methods read them: each outer
key dereferenced through the heap. -/
def transView (m : RefManager) : List (Person × List (Person × ℚ)) :=
  m.touter.map (fun pa => (pa.1, dgetD m.heap pa.2 []))

theorem mem_of_alookup {κ α : Type} [DecidableEq κ] (d : List (κ × α)) (k : κ) (v : α)
    (h : alookup d k = some v) : (k, v) ∈ d := by
  induction d with
  | nil => simp [alookup] at h
  | cons hd tl ih =>
    obtain ⟨k', v'⟩ := hd
    by_cases hk : k = k'
    · subst hk
      simp only [alookup, if_pos rfl] at h
      rw [← Option.some.inj h]
      exact List.mem_cons_self _ _
    · simp only [alookup, if_neg hk] at h
      exact List.mem_cons_of_mem _ (ih h)

theorem map_eq_map_imp {β γ : Type} (l : List β) (f g : β → γ)
    (h : l.map f = l.map g) : ∀ x ∈ l, f x = g x := by
  induction l with
  | nil => simp
  | cons y ys ih =>
    simp only [List.map_cons, List.cons.injEq] at h
    intro x hx
    rcases List.mem_cons.mp hx with h1 | h1
    · exact h1 ▸ h.1
    · exact ih h.2 x h1

theorem writeSnapshotInner_changes (m : RefManager) (p q : Person) (v : ℚ) (addr : Nat)
    (haddr : alookup m.touter p = some addr)
    (hv : v ≠ dgetD (dgetD m.heap addr []) q 0) :
    transView (writeSnapshotInner m (get_transactions_ref m) p q v) ≠ transView m := by
  unfold writeSnapshotInner get_transactions_ref
  rw [haddr]
  intro heq
  unfold transView at heq
  have hpoint := map_eq_map_imp m.touter _ _ heq (p, addr) (mem_of_alookup _ _ _ haddr)
  simp only [Prod.mk.injEq] at hpoint
  have hheap : dgetD (dset m.heap addr (dset (dgetD m.heap addr []) q v)) addr [] =
      dset (dgetD m.heap addr []) q v := by
    rw [dgetD_dset, if_pos rfl]
  rw [hheap] at hpoint
  have := congrArg (fun d => dgetD d q 0) hpoint.2
  simp only [dgetD_dset, if_pos rfl] at this
  exact hv this

/-! ## Concrete states used as witnesses -/

/-- The state after `add_expense("A", 100, ["A","B"])` on a fresh manager. -/
def exM2 : ExpenseManager :=
  ⟨[("A", 50), ("B", -50)], [("B", [("A", 50)])]⟩

/-- The state after `add_expense("A", 100, ["A","B","C","D","E"])` on a
fresh manager. -/
def exM5 : ExpenseManager :=
  ⟨[("A", 20), ("B", -20), ("C", -20), ("D", -20), ("E", -20)],
   [("B", [("A", 20)]), ("C", [("A", 20)]), ("D", [("A", 20)]), ("E", [("A", 20)])]⟩

/-- The state after `add_expense("C", 10, ["A","B"])` on `exM2`
(payer outside the participant list). -/
def exMC10 : ExpenseManager :=
  ⟨[("A", 45), ("B", -55), ("C", 0)],
   [("B", [("A", 50), ("C", 5)]), ("A", [("C", 5)])]⟩

/-- The reference-level state after `add_expense("A", 100, ["A","B"])` on a
fresh manager: one inner dict, at heap address 0. -/
def refM8 : RefManager :=
  ⟨[("A", 50), ("B", -50)], [("B", 0)], [(0, [("A", 50)])], 1⟩

/-! ## Well-formedness is preserved by `add_expense` -/

theorem TransWF_empty : TransWF ExpenseManager.empty.transactions := by
  constructor
  · simp [ExpenseManager.empty, keys]
  · intro pd hpd
    simp [ExpenseManager.empty] at hpd

theorem expenseStep_TransWF (payer : Person) (split : ℚ) (item : Option String)
    (acc : ExpenseManager) (person : Person) (h : TransWF acc.transactions) :
    TransWF (expenseStep payer split item acc person).transactions := by
  unfold expenseStep
  by_cases hp : person = payer
  · rw [if_neg (not_not_intro hp)]
    exact h
  · rw [if_pos hp]
    cases item with
    | none => exact tadd_TransWF _ _ _ _ h
    | some s => exact tadd_TransWF _ _ _ _ h

theorem foldl_expenseStep_TransWF (payer : Person) (split : ℚ) (item : Option String)
    (parts : List Person) (acc : ExpenseManager) (h : TransWF acc.transactions) :
    TransWF ((parts.foldl (expenseStep payer split item) acc).transactions) := by
  induction parts generalizing acc with
  | nil => exact h
  | cons p ps ih => exact ih _ (expenseStep_TransWF _ _ _ _ _ h)

theorem add_expense_TransWF (m : ExpenseManager) (payer : Person) (amount : ℚ)
    (parts : List Person) (item : Option String) (m' : ExpenseManager)
    (h : add_expense m payer amount parts item = some m')
    (hm : TransWF m.transactions) : TransWF m'.transactions := by
  have hne : parts ≠ [] := by
    intro hnil
    subst hnil
    simp [add_expense] at h
  rw [add_expense_eq_some _ _ _ _ _ hne] at h
  have hm2 : m' = parts.foldl (expenseStep payer (amount / (parts.length : ℚ)) item)
      { m with balances := badd m.balances payer amount } := (Option.some.inj h).symm
  subst hm2
  exact foldl_expenseStep_TransWF _ _ _ _ _ hm

/-! ## The claims -/

/-- C1: the spec asserts that after any sequence of valid calls the sum of
all NetBalance values is exactly 0; the code violates it. Because the loop
of `add_expense` debits the payer once more per non-payer participant on
top of the full credit, a single call `add_expense("A", 100, ["A","B","C"])`
on a fresh manager leaves the balances summing to `-100/3`, not 0. -/
theorem C1_conservation_fails : ∃ m : ExpenseManager,
    add_expense ExpenseManager.empty "A" 100 ["A", "B", "C"] none = some m ∧
    sumBalances m = -(100 / 3) ∧ sumBalances m ≠ 0 := by
  refine ⟨⟨[("A", 100 / 3), ("B", -(100 / 3)), ("C", -(100 / 3))],
    [("B", [("A", 100 / 3)]), ("C", [("A", 100 / 3)])]⟩, ?_, ?_, ?_⟩
  · simp [add_expense, expenseStep, badd, tadd, dgetD, dset, ExpenseManager.empty]
    norm_num
  · norm_num [sumBalances]
  · norm_num [sumBalances]

/-- C2: single-expense postcondition on a fresh manager (the double-debit
pattern): each non-payer participant `p` ends at `-share` with ledger entry
`share` against the payer, and the payer ends at `amount - k * share`, where
`share = amount / len(participants)` and `k` counts the non-payer
participants. -/
theorem C2_single_expense (payer : Person) (amount : ℚ) (parts : List Person)
    (item : Option String) (m : ExpenseManager) (hnd : parts.Nodup)
    (h : add_expense ExpenseManager.empty payer amount parts item = some m) :
    (∀ p ∈ parts, ¬p = payer →
      dgetD m.balances p 0 = -(amount / (parts.length : ℚ)) ∧
      tdget m.transactions p payer = amount / (parts.length : ℚ)) ∧
    dgetD m.balances payer 0 =
      amount - ((nonPayers payer parts).length : ℚ) * (amount / (parts.length : ℚ)) := by
  constructor
  · intro p hpmem hpne
    constructor
    · rw [add_expense_balances ExpenseManager.empty payer amount parts item m p h]
      rw [show dgetD ExpenseManager.empty.balances p 0 = 0 from rfl]
      rw [if_neg hpne, nonPayers_count_eq payer p parts hpne,
        List.count_eq_one_of_mem hnd hpmem, if_neg hpne]
      push_cast
      ring
    · rw [add_expense_transactions ExpenseManager.empty payer amount parts item m
        p payer h]
      rw [show tdget ExpenseManager.empty.transactions p payer = 0 from rfl]
      rw [if_pos rfl, nonPayers_count_eq payer p parts hpne,
        List.count_eq_one_of_mem hnd hpmem]
      push_cast
      ring
  · rw [add_expense_balances ExpenseManager.empty payer amount parts item m payer h]
    rw [show dgetD ExpenseManager.empty.balances payer 0 = 0 from rfl]
    rw [if_pos rfl, nonPayers_count_payer payer parts, if_pos rfl]
    push_cast
    ring

/-- C2 witness: `recordExpense("A", 100, ["A","B"])` gives B the balance
`-50` and the ledger entry `B owes A 50`, with A at `50`; and
`recordExpense("A", 100, ["A","B","C","D","E"])` puts each non-payer at
`-20` and the payer at `100 - 4*20 = 20`. -/
theorem C2_single_expense_witness :
    dgetD exM2.balances "B" 0 = -50 ∧
    tdget exM2.transactions "B" "A" = 50 ∧
    dgetD exM2.balances "A" 0 = 50 ∧
    dgetD exM5.balances "C" 0 = -20 ∧
    tdget exM5.transactions "C" "A" = 20 ∧
    dgetD exM5.balances "A" 0 = 20 := by
  have h2 := C2_single_expense "A" 100 ["A", "B"] none exM2 (by decide)
    (by simp [add_expense, expenseStep, badd, tadd, dgetD, dset,
      ExpenseManager.empty, exM2]; norm_num)
  have h5 := C2_single_expense "A" 100 ["A", "B", "C", "D", "E"] none exM5 (by decide)
    (by simp [add_expense, expenseStep, badd, tadd, dgetD, dset,
      ExpenseManager.empty, exM5]; norm_num)
  obtain ⟨hB2, hT2⟩ := h2.1 "B" (by simp) (by decide)
  obtain ⟨hC5, hT5⟩ := h5.1 "C" (by simp) (by decide)
  refine ⟨?_, ?_, ?_, ?_, ?_, ?_⟩
  · rw [hB2]; norm_num
  · rw [hT2]; norm_num
  · rw [h2.2, (by decide : nonPayers "A" ["A", "B"] = ["B"])]
    norm_num
  · rw [hC5]; norm_num
  · rw [hT5]; norm_num
  · rw [h5.2,
      (by decide : nonPayers "A" ["A", "B", "C", "D", "E"] = ["B", "C", "D", "E"])]
    norm_num

/-- C3: calling `add_expense` with an empty participant list fails (the
division by `len(participants)` raises `ZeroDivisionError`) for every
starting state; the failure happens before any mutation, so in this pure
embedding the caller's state is the unchanged `m`. -/
theorem C3_empty_participants_fail (m : ExpenseManager) (payer : Person)
    (amount : ℚ) (item : Option String) :
    add_expense m payer amount [] item = none := rfl

/-- C4: for every dict-shaped state, the aggregation of
`display_transactions` computes `net[A][B] = PairwiseLedger[A][B] -
PairwiseLedger[B][A]` for every ordered pair, and the "Detailed
Transactions" pass reports the triple `(A, B, v)` exactly when the net
value `v` is strictly positive (zero or negative nets produce no line). -/
theorem C4_net_pairwise (m : ExpenseManager) (h : TransWF m.transactions)
    (a b : Person) :
    tdget (total_debts m) a b = netValue m a b ∧
    (∀ v : ℚ, (a, b, v) ∈ detailedReport m ↔ (v = netValue m a b ∧ 0 < v)) := by
  have hnet := tdget_total_debts m h a b
  refine ⟨hnet, ?_⟩
  intro v
  rw [mem_detailedReport, hnet]
  constructor
  · rintro ⟨h1, h2⟩
    exact ⟨h1.symm, h2⟩
  · rintro ⟨h1, h2⟩
    exact ⟨h1.symm, h2⟩

/-- C4 witness: on the state left by `add_expense("A", 100, ["A","B"])`,
the net of the pair (B, A) is its ledger entry 50, and the detailed pass
reports exactly the positive-net triples for that pair. -/
theorem C4_net_pairwise_witness :
    tdget (total_debts exM2) "B" "A" = netValue exM2 "B" "A" ∧
    (∀ v : ℚ, ("B", "A", v) ∈ detailedReport exM2 ↔
      (v = netValue exM2 "B" "A" ∧ 0 < v)) :=
  C4_net_pairwise exM2 (by decide) "B" "A"

/-- C5: the "Detailed Transactions" pass and the "Summary of Total Amounts
Owed" pass of `display_transactions` run the very same loop over the very
same `total_debts` table and therefore report the same (debtor, creditor,
amount) triples in the same order; only the surrounding line text differs. -/
theorem C5_detailed_summary_same (m : ExpenseManager) :
    summaryReport m = detailedReport m := rfl

/-- C6: the `item` argument has no effect on the resulting state: both
branches of the source's `if item:` conditional perform the identical
update, so two calls differing only in `item` (for instance `None` against
any string) return identical balances and transactions. -/
theorem C6_item_noninterference (m : ExpenseManager) (payer : Person) (amount : ℚ)
    (parts : List Person) (item₁ item₂ : Option String) :
    add_expense m payer amount parts item₁ = add_expense m payer amount parts item₂ := by
  unfold add_expense
  by_cases h : parts.length = 0
  · simp [h]
  · simp only [if_neg h]
    have hstep : expenseStep payer (amount / (parts.length : ℚ)) item₁ =
        expenseStep payer (amount / (parts.length : ℚ)) item₂ := by
      funext acc person
      unfold expenseStep
      by_cases hp : person = payer
      · simp [hp]
      · cases item₁ <;> cases item₂ <;> simp
    rw [hstep]

/-- C7: from a fresh manager, `add_expense("A", x, ["A","B"])` followed by
`add_expense("B", x, ["B","A"])` leaves the two ledger entries equal
(`x/2` each way), so the net pairwise debt computed by
`display_transactions` is exactly 0 in both directions and no "owes" line
is reported for the pair. -/
theorem C7_net_cancellation (x : ℚ) (hx : 0 < x) :
    ∃ m₁ m₂ : ExpenseManager,
      add_expense ExpenseManager.empty "A" x ["A", "B"] none = some m₁ ∧
      add_expense m₁ "B" x ["B", "A"] none = some m₂ ∧
      netValue m₂ "A" "B" = 0 ∧ netValue m₂ "B" "A" = 0 ∧
      tdget (total_debts m₂) "A" "B" = 0 ∧ tdget (total_debts m₂) "B" "A" = 0 ∧
      ∀ v : ℚ, ("A", "B", v) ∉ detailedReport m₂ ∧ ("B", "A", v) ∉ detailedReport m₂ := by
  obtain ⟨m₁, h₁⟩ : ∃ m₁, add_expense ExpenseManager.empty "A" x ["A", "B"] none =
      some m₁ := ⟨_, add_expense_eq_some _ _ _ _ _ (by simp)⟩
  obtain ⟨m₂, h₂⟩ : ∃ m₂, add_expense m₁ "B" x ["B", "A"] none = some m₂ :=
    ⟨_, add_expense_eq_some _ _ _ _ _ (by simp)⟩
  have wf₂ : TransWF m₂.transactions :=
    add_expense_TransWF _ _ _ _ _ _ h₂ (add_expense_TransWF _ _ _ _ _ _ h₁ TransWF_empty)
  have tAB : tdget m₂.transactions "A" "B" = x / 2 := by
    rw [add_expense_transactions _ _ _ _ _ _ _ _ h₂,
      add_expense_transactions _ _ _ _ _ _ _ _ h₁,
      show tdget ExpenseManager.empty.transactions "A" "B" = 0 from rfl,
      (by decide : nonPayers "A" ["A", "B"] = ["B"]),
      (by decide : nonPayers "B" ["B", "A"] = ["A"])]
    norm_num [List.count_cons, List.count_nil, beq_iff_eq,
      show ¬("B" : Person) = "A" by decide, show ¬("A" : Person) = "B" by decide]
  have tBA : tdget m₂.transactions "B" "A" = x / 2 := by
    rw [add_expense_transactions _ _ _ _ _ _ _ _ h₂,
      add_expense_transactions _ _ _ _ _ _ _ _ h₁,
      show tdget ExpenseManager.empty.transactions "B" "A" = 0 from rfl,
      (by decide : nonPayers "A" ["A", "B"] = ["B"]),
      (by decide : nonPayers "B" ["B", "A"] = ["A"])]
    norm_num [List.count_cons, List.count_nil, beq_iff_eq,
      show ¬("B" : Person) = "A" by decide, show ¬("A" : Person) = "B" by decide]
  have hnAB : netValue m₂ "A" "B" = 0 := by
    unfold netValue
    rw [tAB, tBA]
    ring
  have hnBA : netValue m₂ "B" "A" = 0 := by
    unfold netValue
    rw [tAB, tBA]
    ring
  have hdAB : tdget (total_debts m₂) "A" "B" = 0 := by
    rw [tdget_total_debts m₂ wf₂]
    exact hnAB
  have hdBA : tdget (total_debts m₂) "B" "A" = 0 := by
    rw [tdget_total_debts m₂ wf₂]
    exact hnBA
  refine ⟨m₁, m₂, h₁, h₂, hnAB, hnBA, hdAB, hdBA, ?_⟩
  intro v
  constructor
  · intro hmem
    rw [mem_detailedReport, hdAB] at hmem
    exact absurd (hmem.1 ▸ hmem.2) (lt_irrefl v)
  · intro hmem
    rw [mem_detailedReport, hdBA] at hmem
    exact absurd (hmem.1 ▸ hmem.2) (lt_irrefl v)

/-- C7 witness: the cancellation at the concrete amount `x = 1`. -/
theorem C7_net_cancellation_witness :
    ∃ m₁ m₂ : ExpenseManager,
      add_expense ExpenseManager.empty "A" 1 ["A", "B"] none = some m₁ ∧
      add_expense m₁ "B" 1 ["B", "A"] none = some m₂ ∧
      netValue m₂ "A" "B" = 0 ∧ netValue m₂ "B" "A" = 0 ∧
      tdget (total_debts m₂) "A" "B" = 0 ∧ tdget (total_debts m₂) "B" "A" = 0 ∧
      ∀ v : ℚ, ("A", "B", v) ∉ detailedReport m₂ ∧ ("B", "A", v) ∉ detailedReport m₂ :=
  C7_net_cancellation 1 one_pos

/-- C8 counterexample: copy semantics fails for `get_transactions`. On the
reference-level state after `add_expense("A", 100, ["A","B"])`, the
snapshot `dict(self.transactions)` shares its inner dicts with the
manager, so writing `snapshot["B"]["A"] = 999` changes the manager's own
transactions view. -/
theorem C8_copy_semantics_fails :
    ∃ m₁ : RefManager,
      add_expense_ref RefManager.empty "A" 100 ["A", "B"] none = some m₁ ∧
      transView (writeSnapshotInner m₁ (get_transactions_ref m₁) "B" "A" 999) ≠
        transView m₁ := by
  refine ⟨refM8, ?_, ?_⟩
  · simp [add_expense_ref, expenseStepRef, alookup, badd, dgetD, dset,
      RefManager.empty, refM8]
    norm_num
  · exact writeSnapshotInner_changes refM8 "B" "A" 999 0 rfl (by norm_num [refM8, dgetD])

/-- C8 (amended): the snapshot operations are pure reads, so in this
embedding two consecutive calls return the same value and taking a
snapshot changes nothing; `get_balances` copies a dict of immutable
numbers and is a true copy.  `get_transactions`, however, is a shallow
copy: the snapshot holds the same inner-dict address as the manager for
every key, and writing an inner entry through the snapshot changes the
manager's transactions view whenever the written value differs from the
stored one. -/
theorem C8_transactions_shallow_copy (m : RefManager) (p q : Person) (v : ℚ)
    (addr : Nat) (haddr : alookup m.touter p = some addr)
    (hv : v ≠ dgetD (dgetD m.heap addr []) q 0) :
    alookup (get_transactions_ref m) p = some addr ∧
    transView (writeSnapshotInner m (get_transactions_ref m) p q v) ≠ transView m :=
  ⟨haddr, writeSnapshotInner_changes m p q v addr haddr hv⟩

/-- C8 witness: the sharing at the concrete reference state `refM8`. -/
theorem C8_transactions_shallow_copy_witness :
    alookup (get_transactions_ref refM8) "B" = some 0 ∧
    transView (writeSnapshotInner refM8 (get_transactions_ref refM8) "B" "A" 999) ≠
      transView refM8 :=
  C8_transactions_shallow_copy refM8 "B" "A" 999 0 rfl (by norm_num [refM8, dgetD])

/-- C9 counterexample: no sequence of valid calls (positive amount,
non-empty participants) ever drives a `PairwiseLedger` entry below zero:
every call only adds the positive `split_amount` to entries, so all
entries stay nonnegative and the spec's "may be negative" reading of the
stored entries is impossible. -/
theorem C9_no_negative_ledger_entry :
    ¬ ∃ (calls : List Call) (m : ExpenseManager) (r s : Person),
      (∀ c ∈ calls, ValidCall c) ∧ runCalls ExpenseManager.empty calls = some m ∧
      tdget m.transactions r s < 0 := by
  rintro ⟨calls, m, r, s, hv, hrun, hneg⟩
  have h0 : ∀ r s : Person, 0 ≤ tdget ExpenseManager.empty.transactions r s := by
    intro r s
    norm_num [tdget, dgetD, ExpenseManager.empty]
  exact absurd hneg
    (not_lt.mpr (runCalls_trans_nonneg calls ExpenseManager.empty m hv h0 hrun r s))

/-- C9 (amended): the `PairwiseLedger` entries are signed in type, but
after any sequence of valid `add_expense` calls from a fresh manager every
stored entry is nonnegative: each call only accumulates a positive share.
Only the derived net values of `display_transactions` can be negative. -/
theorem C9_ledger_entries_nonneg (calls : List Call) (m : ExpenseManager)
    (hv : ∀ c ∈ calls, ValidCall c)
    (hrun : runCalls ExpenseManager.empty calls = some m) (r s : Person) :
    0 ≤ tdget m.transactions r s :=
  runCalls_trans_nonneg calls ExpenseManager.empty m hv
    (by intro r s; norm_num [tdget, dgetD, ExpenseManager.empty]) hrun r s

/-- C9 witness: after the single valid call `add_expense("A", 100,
["A","B"])`, the entry `ledger[B][A]` is nonnegative. -/
theorem C9_ledger_entries_nonneg_witness :
    0 ≤ tdget exM2.transactions "B" "A" :=
  C9_ledger_entries_nonneg [("A", 100, ["A", "B"], none)] exM2
    (by
      intro c hc
      simp only [List.mem_singleton] at hc
      subst hc
      exact ⟨by norm_num, by simp⟩)
    (by
      have hadd : add_expense ExpenseManager.empty "A" 100 ["A", "B"] none =
          some exM2 := by
        simp [add_expense, expenseStep, badd, tadd, dgetD, dset,
          ExpenseManager.empty, exM2]
        norm_num
      simp [runCalls, hadd])
    "B" "A"

/-- C10: when the payer is not in the (non-empty, duplicate-free)
participant list, the full credit of `amount` is exactly cancelled by
`len(participants)` debits of one share each, so the payer's balance is
unchanged, while each participant loses one share and the ledger entry
`participant → payer` grows by one share. -/
theorem C10_payer_outside_neutral (m : ExpenseManager) (payer : Person) (amount : ℚ)
    (parts : List Person) (item : Option String) (m' : ExpenseManager)
    (hnp : payer ∉ parts) (hnd : parts.Nodup)
    (h : add_expense m payer amount parts item = some m') :
    dgetD m'.balances payer 0 = dgetD m.balances payer 0 ∧
    ∀ p ∈ parts,
      dgetD m'.balances p 0 = dgetD m.balances p 0 - amount / (parts.length : ℚ) ∧
      tdget m'.transactions p payer =
        tdget m.transactions p payer + amount / (parts.length : ℚ) := by
  have hne : parts ≠ [] := by
    intro hnil
    subst hnil
    simp [add_expense] at h
  have hlen : ((parts.length : ℚ)) ≠ 0 := by
    simpa using fun hh => hne (List.length_eq_zero.mp hh)
  constructor
  · rw [add_expense_balances m payer amount parts item m' payer h]
    rw [if_pos rfl, if_pos rfl, nonPayers_of_not_mem payer parts hnp,
      List.count_eq_zero_of_not_mem hnp]
    push_cast
    field_simp
  · intro p hp
    have hpne : ¬p = payer := fun hh => hnp (hh ▸ hp)
    constructor
    · rw [add_expense_balances m payer amount parts item m' p h]
      rw [if_neg hpne, if_neg hpne, nonPayers_of_not_mem payer parts hnp,
        List.count_eq_one_of_mem hnd hp]
      push_cast
      ring
    · rw [add_expense_transactions m payer amount parts item m' p payer h]
      rw [if_pos rfl, nonPayers_of_not_mem payer parts hnp,
        List.count_eq_one_of_mem hnd hp]
      push_cast
      ring

/-- C10 witness: `add_expense("C", 10, ["A","B"])` on the state left by
`add_expense("A", 100, ["A","B"])` keeps C at balance 0 while A and B each
lose 5 and each owe C 5 more. -/
theorem C10_payer_outside_neutral_witness :
    dgetD exMC10.balances "C" 0 = dgetD exM2.balances "C" 0 ∧
    ∀ p ∈ (["A", "B"] : List Person),
      dgetD exMC10.balances p 0 =
        dgetD exM2.balances p 0 - 10 / (((["A", "B"] : List Person).length : ℕ) : ℚ) ∧
      tdget exMC10.transactions p "C" =
        tdget exM2.transactions p "C" + 10 / (((["A", "B"] : List Person).length : ℕ) : ℚ) :=
  C10_payer_outside_neutral exM2 "C" 10 ["A", "B"] none exMC10 (by decide) (by decide)
    (by
      simp [add_expense, expenseStep, badd, tadd, dgetD, dset, exM2, exMC10]
      norm_num)
